import Mathlib

/-!
# cf-console: the `console` plugin (`console.go`)

A shallow embedding of `console.go` and the properties of its log scanner,
its provisioning / restore sequence and its request bodies.

Modelling conventions.

* Go `string` values are Lean `String`s (sequences of Unicode code points; the
  log text is taken to be valid UTF-8, on which Go's bytewise `<` on strings
  and the code-point-wise lexicographic order agree).  Go `a > b` on strings is
  `a.data > b.data`, the lexicographic order of character lists.
* Go `int` is the 64-bit two's-complement integer of the platforms the plugin
  is built for: an `Int` kept in range by `wrapInt` after every `+` and `-`.
* A run-time panic (index out of range on a slice) is the result `none` /
  `Outcome.panicked`.
* The platform and the `regexp` package are outside the repository.  The
  platform is the environment `Env` of decoded responses (the errors of the
  calls and of `json.Unmarshal` are dropped by the source); the two regular
  expressions of the source are given in compiled form (`Piece` lists) and
  run by a backtracking matcher with Go's leftmost-first semantics.
* What the plugin does is the list of calls it issues (`Call`), in order.  The
  progress lines of `Log` are left out, and so is the loading of the
  configuration, whose space guid is a field of `Env`.
* The poll loop of `WaitAndConnect` has no bound; `fuel` bounds it here, and
  `Outcome.waiting` says that the fuel ran out.
-/

namespace CfConsole

/-! ## Go `int` -/

/-- Largest Go `int` (64-bit). -/
def maxInt : Int := 9223372036854775807

/-- Smallest Go `int` (64-bit). -/
def minInt : Int := -9223372036854775808

/-- Two's-complement wrap-around of an integer result into the Go `int` range. -/
def wrapInt (x : Int) : Int := (x + 9223372036854775808) % 18446744073709551616 - 9223372036854775808

/-- Go `a + b` on `int`. -/
def goAdd (a b : Int) : Int := wrapInt (a + b)

/-- Go `a - b` on `int`. -/
def goSub (a b : Int) : Int := wrapInt (a - b)

/-- The value is a Go `int`. -/
def IsGoInt (x : Int) : Prop := minInt ≤ x ∧ x ≤ maxInt

instance (x : Int) : Decidable (IsGoInt x) := by unfold IsGoInt; infer_instance

/-! ## The fragment of `regexp` used by the source

Both patterns of the source are concatenations of quantified character
classes with one capture group: no alternation, no nested repetition.  -/

/-- One item of a pattern: a character class repeated exactly `min` times
(`c`, `\d{4}`, `\s{6}`) or, when `greedy`, `min` or more times, preferring more
(`[^\n]+`). -/
structure Piece where
  cls : Char → Bool
  min : Nat
  greedy : Bool

/-- A pattern `pre(grp)post` with its single capture group. -/
structure Regex where
  pre : List Piece
  grp : List Piece
  post : List Piece

/-- Result of `FindStringSubmatch` for a pattern with one group: `m[0]` and `m[1]`. -/
structure Submatch where
  whole : String
  group1 : String
deriving DecidableEq

/-- Try the run lengths `n, n-1, ..., min` in this order (greedy, backtracking),
continuing with `k` on the rest of the input. -/
def tryLengths (k : List Char → Option (List (List Char))) (s : List Char) (min : Nat) :
    Nat → Option (List (List Char))
  | 0 => if min = 0 then (k s).map (fun segs => [] :: segs) else none
  | n + 1 =>
    if n + 1 < min then none
    else
      match k (s.drop (n + 1)) with
      | some segs => some (s.take (n + 1) :: segs)
      | none => tryLengths k s min n

/-- Anchored backtracking match of a piece list at the head of the input: the
text consumed by each piece, for the first successful alternative. -/
def matchPieces : List Piece → List Char → Option (List (List Char))
  | [], _ => some []
  | p :: ps, s =>
    let run := (s.takeWhile p.cls).length
    if p.greedy then tryLengths (matchPieces ps) s p.min run
    else if p.min ≤ run then tryLengths (matchPieces ps) s p.min p.min
    else none

/-- All pieces of a pattern, in order. -/
def Regex.pieces (re : Regex) : List Piece := re.pre ++ re.grp ++ re.post

/-- Anchored match of a pattern at the head of the input. -/
def matchHere (re : Regex) (s : List Char) : Option Submatch :=
  match matchPieces re.pieces s with
  | none => none
  | some segs =>
    some { whole := String.mk segs.flatten
           group1 := String.mk ((segs.drop re.pre.length).take re.grp.length).flatten }

/-- Leftmost match in the input. -/
def findFirst (re : Regex) : List Char → Option Submatch
  | [] => matchHere re []
  | c :: cs =>
    match matchHere re (c :: cs) with
    | some m => some m
    | none => findFirst re cs

/-- Successive non-overlapping leftmost matches; `skip` characters of an
earlier match are still to be passed over.  (Neither pattern of the source
matches the empty text, so Go's rule for empty matches next to a match is not
needed.) -/
def findAllFrom (re : Regex) : Nat → List Char → List Submatch
  | _, [] => []
  | skip + 1, _ :: cs => findAllFrom re skip cs
  | 0, c :: cs =>
    match matchHere re (c :: cs) with
    | some m => m :: findAllFrom re (m.whole.length - 1) cs
    | none => findAllFrom re 0 cs

/-- Go `re.FindStringSubmatch(v)`: `nil` is `none`. -/
def FindStringSubmatch (re : Regex) (v : String) : Option Submatch := findFirst re v.data

/-- Go `re.FindAllStringSubmatch(v, -1)`. -/
def FindAllStringSubmatch (re : Regex) (v : String) : List Submatch := findAllFrom re 0 v.data

/-- Go `\d`. -/
def isDigit (c : Char) : Bool := decide ('0' ≤ c) && decide (c ≤ '9')

/-- Go `\s`: `[\t\n\f\r ]`. -/
def isSpace (c : Char) : Bool :=
  c == '\t' || c == '\n' || c == Char.ofNat 12 || c == '\r' || c == ' '

/-- Go `.` (no `s` flag): any character but newline; the same class as `[^\n]`. -/
def notNewline (c : Char) : Bool := !(c == '\n')

/-- Go `[^\s]`. -/
def notSpace (c : Char) : Bool := !(isSpace c)

/-- Go `[a-z1-9]`. -/
def isHostChar (c : Char) : Bool :=
  (decide ('a' ≤ c) && decide (c ≤ 'z')) || (decide ('1' ≤ c) && decide (c ≤ '9'))

/-- A literal character. -/
def lit (c : Char) : Piece := { cls := fun x => x == c, min := 1, greedy := false }

/-- A literal string. -/
def lits (s : String) : List Piece := s.data.map lit

/-- The repetition `cls{n}`. -/
def rep (cls : Char → Bool) (n : Nat) : Piece := { cls := cls, min := n, greedy := false }

/-- The repetition `cls+`. -/
def plus (cls : Char → Bool) : Piece := { cls := cls, min := 1, greedy := true }

/-- The timestamp `\d{4}-\d{2}-\d{2}T\d{2}:\d{2}:\d{2}.\d{2}-\d{4}` (the `.` is unescaped
in the source). -/
def datePieces : List Piece :=
  [rep isDigit 4, lit '-', rep isDigit 2, lit '-', rep isDigit 2, lit 'T',
   rep isDigit 2, lit ':', rep isDigit 2, lit ':', rep isDigit 2, rep notNewline 1,
   rep isDigit 2, lit '-', rep isDigit 4]

/-- The pattern of `reDate` in `WaitAndConnect` and of `re` in `GetLatestLogDate`:
`(\d{4}-\d{2}-\d{2}T\d{2}:\d{2}:\d{2}.\d{2}-\d{4})\s`. -/
def reDate : Regex := { pre := [], grp := datePieces, post := [rep isSpace 1] }

/-- The text `[App/k]`, with `k` printed by `%v`. -/
def appTag (k : Int) : String := "[App/" ++ toString k ++ "]"

/-- The pattern `exp` of `WaitAndConnect` for the printed index `k`:
`<timestamp>\s\[App\/k\]\s{6}[^\n]+\s([^\s]+\@[a-z1-9]+\.tmate\.io)`. -/
def endpointRe (k : Int) : Regex :=
  { pre := datePieces ++ [rep isSpace 1] ++ lits (appTag k) ++
      [rep isSpace 6, plus notNewline, rep isSpace 1]
    grp := [plus notSpace, lit '@', plus isHostChar] ++ lits ".tmate.io"
    post := [] }

/-! ## Data model (`console.go`, lines 18-59) -/

structure AppSearchMetaData where
  Guid : String
  Url : String
deriving DecidableEq

structure AppSearchEntity where
  Instances : Int
  Command : String
  DetectedCommand : String
  Buildpack : String
  DetectedBuildpack : String
deriving DecidableEq

structure AppSearchResoures where
  Metadata : AppSearchMetaData
  Entity : AppSearchEntity
deriving DecidableEq

structure AppSearchResults where
  Resources : List AppSearchResoures
deriving DecidableEq

structure AppSummary where
  Guid : String
  Name : String
  Diego : Bool
deriving DecidableEq

/-- What the plugin sends out, in the order it sends it: the commands passed to
`cliConnection.CliCommandWithoutTerminalOutput` and the `ssh` process it runs.
Each constructor keeps the arguments of the method that issues it. -/
inductive Call where
  | appQuery (spaceGuid appName : String)
  | summary (guid : String)
  | putCommand (appGuid startCmd : String)
  | putInstances (appGuid : String) (instances : Int)
  | recentLogs (appName : String)
  | ssh (endpoint : String)
deriving DecidableEq

/-- Go `strings.Replace(startCmd, "\"", "\\\"", -1)` on the characters of the string. -/
def escapeQuotes : List Char → List Char
  | [] => []
  | c :: cs => if c = '"' then '\\' :: '"' :: escapeQuotes cs else c :: escapeQuotes cs

/-- The `newCommand` body built by `ChangeAppCommand`. -/
def commandBody (startCmd : String) : String :=
  "\x7b\"command\":\"" ++ String.mk (escapeQuotes startCmd.data) ++ "\"\x7d"

/-- The `newCommand` body built by `ChangeInstanceCount`. -/
def instancesBody (instances : Int) : String :=
  "\x7b\"instances\":" ++ toString instances ++ "\x7d"

/-- The argument list of each command (`cmd := []string{...}`); `ssh` is run
through `exec.Command`. -/
def Call.cmd : Call → List String
  | .appQuery spaceGuid appName =>
    ["curl", "/v2/spaces/" ++ spaceGuid ++ "/apps?q=name:" ++ appName ++ "&inline-relations-depth=1"]
  | .summary guid => ["curl", "/v2/apps/" ++ guid ++ "/summary"]
  | .putCommand appGuid startCmd =>
    ["curl", "/v2/apps/" ++ appGuid, "-X", "PUT", "-d", commandBody startCmd]
  | .putInstances appGuid instances =>
    ["curl", "/v2/apps/" ++ appGuid, "-X", "PUT", "-d", instancesBody instances]
  | .recentLogs appName => ["logs", appName, "--recent"]
  | .ssh endpoint => ["ssh", endpoint]

/-- The call changes the application on the platform (an HTTP `PUT`). -/
def Call.isMutation : Call → Bool
  | .putCommand _ _ => true
  | .putInstances _ _ => true
  | _ => false

/-- The platform as the plugin sees it: the space of the loaded configuration,
the decoded answers to the two queries, and the output of the `i`-th
`logs --recent` call. -/
structure Env where
  spaceGuid : String
  search : AppSearchResults
  summary : AppSummary
  logs : Nat → List String

/-- How a run ends: `done` (returned), `panicked` (index out of range),
`waiting` (the poll loop of `WaitAndConnect` was still spinning when the fuel
ran out). Each carries the calls issued so far. -/
inductive Outcome where
  | done (trace : List Call)
  | panicked (trace : List Call)
  | waiting (trace : List Call)
deriving DecidableEq

/-- The calls issued. -/
def Outcome.trace : Outcome → List Call
  | .done t => t
  | .panicked t => t
  | .waiting t => t

/-! ## The plugin methods -/

/-- `FindAppGuid` on the decoded search result: `res.Resources[0]` panics on an
empty list. -/
def FindAppGuid (res : AppSearchResults) : Option (String × AppSearchEntity) :=
  match res.Resources with
  | [] => none
  | r :: _ => some (r.Metadata.Guid, r.Entity)

/-- `ChangeAppCommand`. -/
def ChangeAppCommand (appGuid startCmd : String) : List Call := [Call.putCommand appGuid startCmd]

/-- `ChangeInstanceCount`. -/
def ChangeInstanceCount (appGuid : String) (instances : Int) : List Call :=
  [Call.putInstances appGuid instances]

/-- The `tmateCmd` of `UpdateForTmate`. -/
def tmateCmd : String :=
  "curl -s https://raw.githubusercontent.com/danhigham/cf-console/master/install.sh > /tmp/install.sh && bash /tmp/install.sh"

/-- `UpdateForTmate`. -/
def UpdateForTmate (appGuid command : String) : List Call :=
  let compCmd := if command ≠ "" then tmateCmd ++ " && " ++ command else tmateCmd
  ChangeAppCommand appGuid compCmd

/-- `GetLatestLogDate` on the output of its `logs --recent` call:
`output[len(output)-1]` panics on an empty output and `matches[0]` on a last
line without a match. -/
def GetLatestLogDate (output : List String) : Option String :=
  match output.getLast? with
  | none => none
  | some lastLine =>
    match FindStringSubmatch reDate lastLine with
    | none => none
    | some m => some m.whole

/-- Inner loop of `WaitAndConnect` (lines 139-143) over the matches of one element. -/
def scanMatches (lineDate : Submatch) (lastDate : String) (ms : List Submatch)
    (ssh_endpoint : String) : String :=
  ms.foldl (fun ep m => if lineDate.whole.data > lastDate.data then m.group1 else ep) ssh_endpoint

/-- Body of the loop over `output` in `WaitAndConnect` (lines 135-144). -/
def scanLine (re : Regex) (lastDate : String) (ssh_endpoint : String) (v : String) : String :=
  match FindStringSubmatch reDate v with
  | some lineDate => scanMatches lineDate lastDate (FindAllStringSubmatch re v) ssh_endpoint
  | none => ssh_endpoint

/-- One pass of the loop over `output` (lines 134-146) for a given pattern `re`,
entered with `ssh_endpoint == ""`. -/
def scanWith (re : Regex) (lastDate : String) (output : List String) : String :=
  output.foldl (scanLine re lastDate) ""

/-- The pattern `re` compiled by `WaitAndConnect` from its `instances` argument. -/
def waitRe (instances : Int) : Regex := endpointRe (goSub instances 1)

/-- One pass of the outer loop of `WaitAndConnect` over a fetched window; the pass is
entered with `ssh_endpoint == ""`. -/
def scanWindow (instances : Int) (lastDate : String) (output : List String) : String :=
  output.foldl (scanLine (waitRe instances) lastDate) ""

/-- The poll loop of `WaitAndConnect`, reading the windows `logs i, logs (i+1), ...`:
the calls issued and the endpoint found, `none` when the fuel runs out first. -/
def pollLoop (logs : Nat → List String) (appName : String) (instances : Int) (lastDate : String) :
    Nat → Nat → List Call × Option String
  | 0, _ => ([], none)
  | fuel + 1, i =>
    let ssh_endpoint := scanWindow instances lastDate (logs i)
    if ssh_endpoint = "" then
      let r := pollLoop logs appName instances lastDate fuel (i + 1)
      (Call.recentLogs appName :: r.1, r.2)
    else ([Call.recentLogs appName], some ssh_endpoint)

/-- `WaitAndConnect`: poll until an endpoint turns up, then run `ssh` on it. The
windows it reads are `logs 1, logs 2, ...` (`logs 0` went to `GetLatestLogDate`). -/
def WaitAndConnect (logs : Nat → List String) (appName : String) (instances : Int)
    (lastDate : String) (fuel : Nat) : List Call × Bool :=
  match pollLoop logs appName instances lastDate fuel 1 with
  | (t, none) => (t, false)
  | (t, some ssh_endpoint) => (t ++ [Call.ssh ssh_endpoint], true)

/-- Lines 70-85 of `Run`: the calls of the provisioning branch and the value of
`instances` after it. -/
def provision (summary : AppSummary) (guid : String) (entity : AppSearchEntity) : List Call × Int :=
  if summary.Diego = false then
    let instances := goAdd entity.Instances 1
    (UpdateForTmate guid "sleep 3600" ++ ChangeInstanceCount guid instances, instances)
  else ([], entity.Instances)

/-- Lines 109-113 of `Run`: the clean-up after `WaitAndConnect` has returned. -/
def cleanup (guid : String) (instances : Int) (entity : AppSearchEntity) : List Call :=
  ChangeInstanceCount guid (goSub instances 1) ++ ChangeAppCommand guid entity.Command

/-- Lines 98-102 of `Run`: what the interrupt handler does for one signal. -/
def interruptHandler (guid : String) (instances : Int) (entity : AppSearchEntity) : List Call :=
  ChangeInstanceCount guid (goSub instances 1) ++ ChangeAppCommand guid entity.Command

/-- `Run` without interrupts. `fuel` bounds the number of polls of `WaitAndConnect`. -/
def Run (env : Env) (fuel : Nat) (args : List String) : Outcome :=
  match args.get? 1 with
  | none => .panicked []
  | some appName =>
    let t1 := [Call.appQuery env.spaceGuid appName]
    match FindAppGuid env.search with
    | none => .panicked t1
    | some (guid, entity) =>
      let t2 := t1 ++ [Call.summary guid]
      let p := provision env.summary guid entity
      let instances := p.2
      let t3 := t2 ++ p.1 ++ [Call.recentLogs appName]
      match GetLatestLogDate (env.logs 0) with
      | none => .panicked t3
      | some lastDate =>
        match WaitAndConnect env.logs appName instances lastDate fuel with
        | (t, false) => .waiting (t3 ++ t)
        | (t, true) => .done (t3 ++ t ++ cleanup guid instances entity)

/-- The instance count a call writes. -/
def Call.instanceCount : Call → Option Int
  | .putInstances _ n => some n
  | _ => none

/-- The start command a call is given to write. -/
def Call.startCommand : Call → Option String
  | .putCommand _ s => some s
  | _ => none

/-- The instance count of the last `ChangeInstanceCount` call of a trace. -/
def lastInstanceCount (tr : List Call) : Option Int := (tr.filterMap Call.instanceCount).getLast?

/-- The start command of the last `ChangeAppCommand` call of a trace. -/
def lastStartCommand (tr : List Call) : Option String := (tr.filterMap Call.startCommand).getLast?

/-! ## What a match is

The language of a piece list, stated without reference to the matcher. -/

/-- The segment is an admissible repetition of the piece. -/
def Piece.Accepts (p : Piece) (seg : List Char) : Prop :=
  p.min ≤ seg.length ∧ (p.greedy = false → seg.length = p.min) ∧ ∀ c ∈ seg, p.cls c = true

/-- The segments are admissible for the pieces, one for one. -/
def Conforms (ps : List Piece) (segs : List (List Char)) : Prop :=
  List.Forall₂ Piece.Accepts ps segs

/-- The text is in the language of the piece list. -/
def Matches (ps : List Piece) (text : List Char) : Prop :=
  ∃ segs, Conforms ps segs ∧ segs.flatten = text

/-! ## The accepted candidates of a window

The reading of the scan given in the specification, to be compared with the
loops of `WaitAndConnect`. -/

/-- The candidates an element supplies, in match order: the captured endpoints
of its matches when the element has a timestamp strictly greater than
`lastDate`, none otherwise. -/
def lineCandidates (re : Regex) (lastDate : String) (v : String) : List String :=
  match FindStringSubmatch reDate v with
  | none => []
  | some d =>
    if d.whole.data > lastDate.data then (FindAllStringSubmatch re v).map Submatch.group1 else []

/-- The accepted candidates of a window, in window order. -/
def acceptedCandidates (instances : Int) (lastDate : String) (output : List String) : List String :=
  output.flatMap (lineCandidates (waitRe instances) lastDate)

/-! ## Reading a request body back

Standard JSON string unescaping (RFC 8259, section 7), for the body that
`ChangeAppCommand` sends. -/

/-- Value of a hexadecimal digit. -/
def hexVal (c : Char) : Option Nat :=
  if '0' ≤ c ∧ c ≤ '9' then some (c.toNat - 48)
  else if 'a' ≤ c ∧ c ≤ 'f' then some (c.toNat - 87)
  else if 'A' ≤ c ∧ c ≤ 'F' then some (c.toNat - 55)
  else none

/-- The character a two-character escape stands for. -/
def simpleEscape (e : Char) : Option Char :=
  if e = '"' then some '"'
  else if e = '\\' then some '\\'
  else if e = '/' then some '/'
  else if e = 'b' then some (Char.ofNat 8)
  else if e = 'f' then some (Char.ofNat 12)
  else if e = 'n' then some '\n'
  else if e = 'r' then some '\r'
  else if e = 't' then some '\t'
  else none

/-- Value of four hexadecimal digits. -/
def hex4 (a b c d : Char) : Option Nat :=
  match hexVal a, hexVal b, hexVal c, hexVal d with
  | some x, some y, some z, some w => some (((x * 16 + y) * 16 + z) * 16 + w)
  | _, _, _, _ => none

/-- The replacement character U+FFFD, which stands for a surrogate without its partner. -/
def replacementChar : Char := Char.ofNat 65533

/-- Put out U+FFFD for a high surrogate that was left without its low surrogate. -/
def flushPending (pending : Option Nat) (out : List Char) : List Char :=
  match pending with
  | none => out
  | some _ => replacementChar :: out

/-- Read a JSON string from just after its opening quote: the unescaped
content and the input left after the closing quote; `none` when the text is
not a JSON string (no closing quote, an unknown escape, a raw control
character).  `pending` is the high surrogate of a `\u` escape just read: with
the low surrogate escape right after it, it is one character beyond U+FFFF;
a surrogate escape without its partner is read as U+FFFD. -/
def jsonStringFrom : Option Nat → List Char → Option (List Char × List Char)
  | _, [] => none
  | pending, c :: rest =>
    if c = '"' then some (flushPending pending [], rest)
    else if c = '\\' then
      match rest with
      | [] => none
      | e :: rest1 =>
        if e = 'u' then
          match rest1 with
          | a :: b :: c2 :: d :: rest2 =>
            match hex4 a b c2 d with
            | none => none
            | some v =>
              if 56320 ≤ v ∧ v ≤ 57343 then
                match pending with
                | some hi =>
                  (jsonStringFrom none rest2).map
                    (fun r => (Char.ofNat (65536 + (hi - 55296) * 1024 + (v - 56320)) :: r.1, r.2))
                | none => (jsonStringFrom none rest2).map (fun r => (replacementChar :: r.1, r.2))
              else if 55296 ≤ v ∧ v ≤ 56319 then
                (jsonStringFrom (some v) rest2).map (fun r => (flushPending pending r.1, r.2))
              else
                (jsonStringFrom none rest2).map
                  (fun r => (flushPending pending (Char.ofNat v :: r.1), r.2))
          | _ => none
        else
          match simpleEscape e with
          | none => none
          | some ch =>
            (jsonStringFrom none rest1).map (fun r => (flushPending pending (ch :: r.1), r.2))
    else if c.toNat < 32 then none
    else (jsonStringFrom none rest).map (fun r => (flushPending pending (c :: r.1), r.2))

/-- Read a JSON string from just after its opening quote (standard JSON string
unescaping). -/
def jsonStringBody (s : List Char) : Option (List Char × List Char) := jsonStringFrom none s

/-- Remove a prefix. -/
def dropPrefix : List Char → List Char → Option (List Char)
  | [], s => some s
  | _ :: _, [] => none
  | p :: ps, c :: cs => if p = c then dropPrefix ps cs else none

/-- The value of the `command` field of a body of the form
`\x7b"command":"..."\x7d`, `none` when the body is not of this form. -/
def decodeCommandBody (body : String) : Option String :=
  match dropPrefix "\x7b\"command\":\"".data body.data with
  | none => none
  | some rest =>
    match jsonStringBody rest with
    | some (cmd, tail) => if tail = "\x7d".data then some (String.mk cmd) else none
    | none => none

/-! ## The platform side of the two `PUT` calls

The platform is not part of the repository.  Its state for an application is
the instance count and start command last written (last write wins, section 5
of the specification); how it reads a request body is left open (`Api`). -/

/-- What the platform holds for one application. -/
structure AppState where
  instances : Int
  command : String
deriving DecidableEq

/-- How the platform reads the two request bodies; `none`: the request is
rejected and changes nothing. -/
structure Api where
  instancesOf : String → Option Int
  commandOf : String → Option String

/-- Platform state: the applications by guid. -/
abbrev Platform := String → AppState

/-- Effect of one call on the platform. -/
def Platform.put (api : Api) (st : Platform) : Call → Platform
  | .putInstances appGuid n =>
    match api.instancesOf (instancesBody n) with
    | some k => Function.update st appGuid { st appGuid with instances := k }
    | none => st
  | .putCommand appGuid startCmd =>
    match api.commandOf (commandBody startCmd) with
    | some c => Function.update st appGuid { st appGuid with command := c }
    | none => st
  | _ => st

/-- Effect of a sequence of calls. -/
def Platform.run (api : Api) (calls : List Call) (st : Platform) : Platform :=
  calls.foldl (Platform.put api) st

/-- Read a decimal number. -/
def readNat : List Char → Nat → Option Nat
  | [], acc => some acc
  | c :: cs, acc => if isDigit c then readNat cs (acc * 10 + (c.toNat - 48)) else none

/-- Read a body of the form `\x7b"instances":n\x7d`. -/
def decodeInstancesBody (body : String) : Option Int :=
  match dropPrefix "\x7b\"instances\":".data body.data with
  | none => none
  | some rest =>
    match rest.reverse with
    | '}' :: ds =>
      match ds.reverse with
      | '-' :: (d :: digits) => (readNat (d :: digits) 0).map (fun n => - (n : Int))
      | d :: digits => (readNat (d :: digits) 0).map (fun n => (n : Int))
      | [] => none
    | _ => none

/-- A platform that reads the bodies as JSON. -/
def jsonApi : Api := { instancesOf := decodeInstancesBody, commandOf := decodeCommandBody }

/-! ## Sample data -/

/-- A log line of application instance `k`. -/
def sampleLine (ts : String) (k : Nat) (text : String) : String :=
  ts ++ " [App/" ++ toString k ++ "]      OUT " ++ text

/-- The log before the session. -/
def oldWindow : List String :=
  [sampleLine "2015-03-04T12:34:50.10-0800" 0 "listening",
   sampleLine "2015-03-04T12:34:56.78-0800" 1 "ssh old@ny1.tmate.io"]

/-- The log once the helper of instance 2 has started; instance 1 logs an
endpoint of its own later on. -/
def newWindow : List String :=
  oldWindow ++
  [sampleLine "2015-03-04T12:35:10.00-0800" 2 "ssh abc@ny1.tmate.io",
   sampleLine "2015-03-04T12:35:11.00-0800" 1 "ssh abd@ny1.tmate.io"]

/-- The application `foo` of the specification: 2 instances, start command `node app.js`. -/
def fooEntity : AppSearchEntity :=
  { Instances := 2, Command := "node app.js", DetectedCommand := "", Buildpack := "",
    DetectedBuildpack := "" }

/-- The platform answers for `foo`; the endpoint shows up from the third
`logs --recent` call on. -/
def fooEnv (diego : Bool) : Env where
  spaceGuid := "sp"
  search := { Resources := [{ Metadata := { Guid := "g1", Url := "/v2/apps/g1" }, Entity := fooEntity }] }
  summary := { Guid := "g1", Name := "foo", Diego := diego }
  logs := fun i => if i < 2 then oldWindow else newWindow

/-- A space without an application of the requested name. -/
def emptyEnv : Env where
  spaceGuid := "sp"
  search := { Resources := [] }
  summary := { Guid := "", Name := "", Diego := false }
  logs := fun _ => []

/-! ## Soundness of the matcher -/

theorem tryLengths_some (k : List Char → Option (List (List Char))) (s : List Char) (min : Nat) :
    ∀ (n : Nat) (r : List (List Char)), tryLengths k s min n = some r →
      ∃ j segs, min ≤ j ∧ j ≤ n ∧ k (s.drop j) = some segs ∧ r = s.take j :: segs := by
  intro n
  induction n with
  | zero =>
    intro r h
    unfold tryLengths at h
    by_cases hm : min = 0
    · rw [if_pos hm] at h
      cases hk : k s with
      | none => rw [hk] at h; simp at h
      | some segs =>
        rw [hk] at h
        simp at h
        exact ⟨0, segs, by omega, le_refl 0, by simpa using hk, by simpa using h.symm⟩
    · rw [if_neg hm] at h
      simp at h
  | succ n ih =>
    intro r h
    unfold tryLengths at h
    by_cases hlt : n + 1 < min
    · rw [if_pos hlt] at h
      simp at h
    · rw [if_neg hlt] at h
      cases hk : k (s.drop (n + 1)) with
      | some segs =>
        rw [hk] at h
        simp at h
        exact ⟨n + 1, segs, by omega, le_refl _, hk, h.symm⟩
      | none =>
        rw [hk] at h
        simp at h
        obtain ⟨j, segs, h1, h2, h3, h4⟩ := ih r h
        exact ⟨j, segs, h1, by omega, h3, h4⟩

theorem take_of_le_takeWhile (p : Char → Bool) :
    ∀ (s : List Char) (j : Nat), j ≤ (s.takeWhile p).length →
      (s.take j).length = j ∧ ∀ c ∈ s.take j, p c = true := by
  intro s
  induction s with
  | nil =>
    intro j h
    simp at h
    subst h
    simp
  | cons a t ih =>
    intro j h
    cases j with
    | zero => simp
    | succ j =>
      by_cases hp : p a = true
      · rw [List.takeWhile_cons_of_pos hp] at h
        have hj : j ≤ (t.takeWhile p).length := by simpa using h
        obtain ⟨h1, h2⟩ := ih j hj
        refine ⟨by simp [h1], ?_⟩
        intro c hc
        simp only [List.take_succ_cons, List.mem_cons] at hc
        rcases hc with rfl | hc
        · exact hp
        · exact h2 c hc
      · rw [List.takeWhile_cons_of_neg hp] at h
        simp at h

theorem matchPieces_sound :
    ∀ (ps : List Piece) (s : List Char) (segs : List (List Char)),
      matchPieces ps s = some segs → Conforms ps segs ∧ segs.flatten <+: s := by
  intro ps
  induction ps with
  | nil =>
    intro s segs h
    simp [matchPieces] at h
    subst h
    exact ⟨List.Forall₂.nil, by simp⟩
  | cons p ps ih =>
    intro s segs h
    have key : ∀ n, n ≤ (s.takeWhile p.cls).length → (p.greedy = false → n = p.min) →
        tryLengths (matchPieces ps) s p.min n = some segs →
        Conforms (p :: ps) segs ∧ segs.flatten <+: s := by
      intro n hn hex ht
      obtain ⟨j, segs1, h1, h2, h3, h4⟩ := tryLengths_some _ _ _ _ _ ht
      obtain ⟨hc, hp⟩ := ih _ _ h3
      obtain ⟨hl, hall⟩ := take_of_le_takeWhile p.cls s j (le_trans h2 hn)
      subst h4
      refine ⟨List.Forall₂.cons ⟨by omega, ?_, hall⟩ hc, ?_⟩
      · intro hg
        have := hex hg
        omega
      · obtain ⟨r, hr⟩ := hp
        refine ⟨r, ?_⟩
        rw [List.flatten_cons, List.append_assoc, hr, List.take_append_drop]
    unfold matchPieces at h
    simp only at h
    by_cases hg : p.greedy = true
    · rw [if_pos hg] at h
      exact key _ (le_refl _) (fun hf => by rw [hg] at hf; cases hf) h
    · rw [if_neg hg] at h
      by_cases hm : p.min ≤ (s.takeWhile p.cls).length
      · rw [if_pos hm] at h
        exact key _ hm (fun _ => rfl) h
      · rw [if_neg hm] at h
        cases h

theorem matchHere_some (re : Regex) (t : List Char) (m : Submatch) (h : matchHere re t = some m) :
    ∃ segs, Conforms re.pieces segs ∧ segs.flatten <+: t ∧ m.whole = String.mk segs.flatten ∧
      m.group1 = String.mk ((segs.drop re.pre.length).take re.grp.length).flatten := by
  unfold matchHere at h
  cases hm : matchPieces re.pieces t with
  | none => rw [hm] at h; cases h
  | some segs =>
    rw [hm] at h
    simp only [Option.some.injEq] at h
    obtain ⟨hc, hp⟩ := matchPieces_sound _ _ _ hm
    subst h
    exact ⟨segs, hc, hp, rfl, rfl⟩

theorem findFirst_some (re : Regex) :
    ∀ (s : List Char) (m : Submatch), findFirst re s = some m →
      ∃ t, t <:+ s ∧ matchHere re t = some m := by
  intro s
  induction s with
  | nil =>
    intro m h
    exact ⟨[], List.suffix_refl _, by simpa [findFirst] using h⟩
  | cons c cs ih =>
    intro m h
    unfold findFirst at h
    cases hm : matchHere re (c :: cs) with
    | some m1 =>
      rw [hm] at h
      simp only [Option.some.injEq] at h
      subst h
      exact ⟨c :: cs, List.suffix_refl _, hm⟩
    | none =>
      rw [hm] at h
      obtain ⟨t, ht, hmt⟩ := ih m h
      exact ⟨t, ht.trans (List.suffix_cons c cs), hmt⟩

theorem findAllFrom_mem (re : Regex) :
    ∀ (s : List Char) (skip : Nat) (m : Submatch), m ∈ findAllFrom re skip s →
      ∃ t, t <:+ s ∧ matchHere re t = some m := by
  intro s
  induction s with
  | nil =>
    intro skip m h
    simp [findAllFrom] at h
  | cons c cs ih =>
    intro skip m h
    cases skip with
    | succ k =>
      simp only [findAllFrom] at h
      obtain ⟨t, ht, hmt⟩ := ih k m h
      exact ⟨t, ht.trans (List.suffix_cons c cs), hmt⟩
    | zero =>
      simp only [findAllFrom] at h
      cases hm : matchHere re (c :: cs) with
      | some m1 =>
        rw [hm] at h
        simp only [List.mem_cons] at h
        rcases h with rfl | h
        · exact ⟨c :: cs, List.suffix_refl _, hm⟩
        · obtain ⟨t, ht, hmt⟩ := ih _ m h
          exact ⟨t, ht.trans (List.suffix_cons c cs), hmt⟩
      | none =>
        rw [hm] at h
        obtain ⟨t, ht, hmt⟩ := ih _ m h
        exact ⟨t, ht.trans (List.suffix_cons c cs), hmt⟩

/-! ## The scan of `WaitAndConnect` -/

theorem getLastD_cons (a : String) (l : List String) (ep : String) :
    ((a :: l).getLast?).getD ep = (l.getLast?).getD a := by
  cases l with
  | nil => rfl
  | cons b t =>
    rw [List.getLast?_cons_cons, List.getLast?_eq_getLast (b :: t) (List.cons_ne_nil _ _)]
    rfl

theorem getLastD_append (l₁ l₂ : List String) (ep : String) :
    ((l₁ ++ l₂).getLast?).getD ep = (l₂.getLast?).getD ((l₁.getLast?).getD ep) := by
  induction l₁ generalizing ep with
  | nil => simp
  | cons a t ih =>
    rw [List.cons_append, getLastD_cons, getLastD_cons, ih]

theorem foldl_overwrite (f : Submatch → String) :
    ∀ (ms : List Submatch) (ep : String),
      ms.foldl (fun _ m => f m) ep = ((ms.map f).getLast?).getD ep := by
  intro ms
  induction ms with
  | nil => intro ep; rfl
  | cons m t ih =>
    intro ep
    rw [List.foldl_cons, ih, List.map_cons, getLastD_cons]

theorem foldl_keep (ms : List Submatch) (ep : String) :
    ms.foldl (fun (acc : String) (_ : Submatch) => acc) ep = ep := by
  induction ms with
  | nil => rfl
  | cons m t ih => rw [List.foldl_cons, ih]

theorem scanLine_eq (re : Regex) (lastDate ep v : String) :
    scanLine re lastDate ep v = ((lineCandidates re lastDate v).getLast?).getD ep := by
  unfold scanLine lineCandidates
  cases FindStringSubmatch reDate v with
  | none => rfl
  | some d =>
    simp only [scanMatches]
    by_cases hd : d.whole.data > lastDate.data
    · simp only [if_pos hd]
      exact foldl_overwrite _ _ _
    · simp only [if_neg hd]
      exact foldl_keep _ _

theorem scanFold_eq (re : Regex) (lastDate : String) :
    ∀ (output : List String) (ep : String),
      output.foldl (scanLine re lastDate) ep =
        ((output.flatMap (lineCandidates re lastDate)).getLast?).getD ep := by
  intro output
  induction output with
  | nil => intro ep; rfl
  | cons v t ih =>
    intro ep
    rw [List.foldl_cons, ih, scanLine_eq, List.flatMap_cons, getLastD_append]

theorem scanWindow_eq (instances : Int) (lastDate : String) (output : List String) :
    scanWindow instances lastDate output =
      ((acceptedCandidates instances lastDate output).getLast?).getD "" :=
  scanFold_eq _ _ _ _

theorem mem_lineCandidates (re : Regex) (lastDate v e : String)
    (h : e ∈ lineCandidates re lastDate v) :
    ∃ d, FindStringSubmatch reDate v = some d ∧ d.whole.data > lastDate.data ∧
      ∃ m ∈ FindAllStringSubmatch re v, m.group1 = e := by
  unfold lineCandidates at h
  cases hd : FindStringSubmatch reDate v with
  | none => rw [hd] at h; simp at h
  | some d =>
    rw [hd] at h
    simp only at h
    by_cases hlt : d.whole.data > lastDate.data
    · rw [if_pos hlt] at h
      obtain ⟨m, hm, rfl⟩ := List.mem_map.mp h
      exact ⟨d, rfl, hlt, m, hm, rfl⟩
    · rw [if_neg hlt] at h
      simp at h

theorem scanWindow_selected (instances : Int) (lastDate : String) (output : List String)
    (e : String) (h : scanWindow instances lastDate output = e) (he : e ≠ "") :
    ∃ v ∈ output, e ∈ lineCandidates (waitRe instances) lastDate v := by
  rw [scanWindow_eq] at h
  cases hl : (acceptedCandidates instances lastDate output).getLast? with
  | none =>
    rw [hl] at h
    exact absurd h.symm he
  | some x =>
    rw [hl] at h
    simp only [Option.getD_some] at h
    subst h
    have hx := List.mem_of_getLast?_eq_some hl
    unfold acceptedCandidates at hx
    obtain ⟨v, hv, hxv⟩ := List.mem_flatMap.mp hx
    exact ⟨v, hv, hxv⟩

/-- C3. An endpoint selected by one scan pass of `WaitAndConnect` is the capture of a
pattern match inside a window element whose timestamp (the first match of the
timestamp pattern in it) is strictly greater than `lastDate` as a string; an
element whose timestamp is not greater than `lastDate` leaves the endpoint as
it was. -/
theorem scan_after_high_water_mark (instances : Int) (lastDate : String) (output : List String)
    (e : String) (h : scanWindow instances lastDate output = e) (he : e ≠ "") :
    (∃ v ∈ output, ∃ d, FindStringSubmatch reDate v = some d ∧ d.whole.data > lastDate.data ∧
      ∃ m ∈ FindAllStringSubmatch (waitRe instances) v, m.group1 = e) ∧
    (∀ v d, FindStringSubmatch reDate v = some d → d.whole.data ≤ lastDate.data →
      lineCandidates (waitRe instances) lastDate v = [] ∧
      ∀ ep, scanLine (waitRe instances) lastDate ep v = ep) := by
  refine ⟨?_, ?_⟩
  · obtain ⟨v, hv, hev⟩ := scanWindow_selected instances lastDate output e h he
    exact ⟨v, hv, mem_lineCandidates _ _ _ _ hev⟩
  · intro v d hd hle
    have hc : lineCandidates (waitRe instances) lastDate v = [] := by
      unfold lineCandidates
      rw [hd]
      simp only
      rw [if_neg (not_lt.mpr hle)]
    refine ⟨hc, fun ep => ?_⟩
    rw [scanLine_eq, hc]
    rfl

/-- C3, on the sample log: with the high-water mark at the last old line, the
pass selects the endpoint of the later line of instance 2. -/
theorem scan_after_high_water_mark_witness :
    scanWindow 3 "2015-03-04T12:34:56.78-0800 " newWindow = "abc@ny1.tmate.io" ∧
    "abc@ny1.tmate.io" ≠ "" ∧
    ∃ v ∈ newWindow, ∃ d, FindStringSubmatch reDate v = some d ∧
      d.whole.data > "2015-03-04T12:34:56.78-0800 ".data ∧
      ∃ m ∈ FindAllStringSubmatch (waitRe 3) v, m.group1 = "abc@ny1.tmate.io" :=
  ⟨by decide, by decide,
    (scan_after_high_water_mark 3 "2015-03-04T12:34:56.78-0800 " newWindow "abc@ny1.tmate.io"
      (by decide) (by decide)).1⟩

/-- C7. When a window has an accepted candidate, one scan pass of `WaitAndConnect`
selects the last accepted candidate in window order. -/
theorem scan_selects_last_candidate (instances : Int) (lastDate : String) (output : List String)
    (h : acceptedCandidates instances lastDate output ≠ []) :
    scanWindow instances lastDate output =
      (acceptedCandidates instances lastDate output).getLast h := by
  rw [scanWindow_eq, List.getLast?_eq_getLast _ h]
  rfl

/-- C7, on the sample log with an early high-water mark: two candidates are
accepted and the later one is selected. -/
theorem scan_selects_last_candidate_witness :
    acceptedCandidates 2 "2015-03-04T12:34:50.78-0800 " newWindow =
      ["old@ny1.tmate.io", "abd@ny1.tmate.io"] ∧
    scanWindow 2 "2015-03-04T12:34:50.78-0800 " newWindow = "abd@ny1.tmate.io" :=
  ⟨by decide,
    (scan_selects_last_candidate 2 "2015-03-04T12:34:50.78-0800 " newWindow (by decide)).trans
      (by decide)⟩

/-! ## The shape of an endpoint match -/

theorem conforms_append :
    ∀ (a b : List Piece) (segs : List (List Char)), Conforms (a ++ b) segs →
      ∃ s₁ s₂, segs = s₁ ++ s₂ ∧ Conforms a s₁ ∧ Conforms b s₂ := by
  intro a
  induction a with
  | nil =>
    intro b segs h
    exact ⟨[], segs, rfl, List.Forall₂.nil, h⟩
  | cons p a ih =>
    intro b segs h
    rw [List.cons_append] at h
    obtain ⟨seg, rest, hp, hrest, rfl⟩ := List.forall₂_cons_left_iff.mp h
    obtain ⟨s₁, s₂, rfl, h₁, h₂⟩ := ih b rest hrest
    exact ⟨seg :: s₁, s₂, rfl, List.Forall₂.cons hp h₁, h₂⟩

theorem accepts_lit (c : Char) (seg : List Char) (h : (lit c).Accepts seg) : seg = [c] := by
  obtain ⟨_, hlen, hall⟩ := h
  have hl : seg.length = 1 := hlen rfl
  match seg, hl, hall with
  | [x], _, hall =>
    have hx : (x == c) = true := hall x (List.mem_singleton.mpr rfl)
    rw [eq_of_beq hx]

theorem conforms_lits :
    ∀ (cs : List Char) (segs : List (List Char)), Conforms (cs.map lit) segs →
      segs.flatten = cs := by
  intro cs
  induction cs with
  | nil =>
    intro segs h
    cases h
    rfl
  | cons c cs ih =>
    intro segs h
    rw [List.map_cons] at h
    obtain ⟨seg, rest, hp, hrest, rfl⟩ := List.forall₂_cons_left_iff.mp h
    rw [List.flatten_cons, accepts_lit c seg hp, ih rest hrest]
    rfl

theorem endpoint_match_shape (k : Int) (t : List Char) (m : Submatch)
    (h : matchHere (endpointRe k) t = some m) :
    m.whole.data <+: t ∧
    ∃ ts w rest, Matches datePieces ts ∧ isSpace w = true ∧
      m.whole.data = ts ++ w :: ((appTag k).data ++ rest) := by
  obtain ⟨segs, hc, hp, hw, _⟩ := matchHere_some _ _ _ h
  refine ⟨by rw [hw]; exact hp, ?_⟩
  simp only [Regex.pieces, endpointRe, List.append_assoc] at hc
  obtain ⟨s₁, s₂, rfl, h₁, h₂⟩ := conforms_append _ _ _ hc
  rw [List.singleton_append] at h₂
  obtain ⟨segw, s₃, hwp, h₃, rfl⟩ := List.forall₂_cons_left_iff.mp h₂
  obtain ⟨s₄, s₅, rfl, h₄, _⟩ := conforms_append _ _ _ h₃
  have htag : s₄.flatten = (appTag k).data := conforms_lits _ _ h₄
  obtain ⟨_, hlen, hall⟩ := hwp
  have hl : segw.length = 1 := hlen rfl
  match segw, hl, hall with
  | [w], _, hall =>
    refine ⟨s₁.flatten, w, s₅.flatten, ⟨s₁, h₁, rfl⟩, hall w (List.mem_singleton.mpr rfl), ?_⟩
    rw [hw]
    simp [htag]

theorem endpoint_match_located (k : Int) (v : String) (m : Submatch)
    (h : m ∈ FindAllStringSubmatch (endpointRe k) v) :
    m.whole.data <:+: v.data ∧ (appTag k).data <:+: m.whole.data ∧
    ∃ ts w rest, Matches datePieces ts ∧ isSpace w = true ∧
      m.whole.data = ts ++ w :: ((appTag k).data ++ rest) := by
  obtain ⟨t, ht, hm⟩ := findAllFrom_mem _ _ _ _ h
  obtain ⟨hpre, ts, w, rest, hts, hw, heq⟩ := endpoint_match_shape k t m hm
  refine ⟨List.IsInfix.trans hpre.isInfix ht.isInfix, ?_, ts, w, rest, hts, hw, heq⟩
  rw [heq]
  exact ⟨ts ++ [w], rest, by simp⟩

theorem no_tag_no_match (k : Int) (v : String) (h : ¬ (appTag k).data <:+: v.data) :
    FindAllStringSubmatch (endpointRe k) v = [] := by
  apply List.eq_nil_iff_forall_not_mem.mpr
  intro m hm
  obtain ⟨h₁, h₂, _⟩ := endpoint_match_located k v m hm
  exact h (List.IsInfix.trans h₂ h₁)

/-- C4. Every endpoint that a scan pass of `WaitAndConnect` selects is the capture of a
match, inside an element of the window, whose text is a timestamp, one white-space
character and the tag `[App/k]` with `k` the value of `instances-1`, followed by
the rest of the match; an element that does not contain the text `[App/k]`
(a line of another instance) has no match, supplies no candidate and leaves
the endpoint as it was, whatever its timestamp.  `instances-1` is `n - 1` for
every `n` above the smallest `int`. -/
theorem scan_only_requested_instance (n : Int) (lastDate : String) (output : List String) :
    (∀ e, scanWindow n lastDate output = e → e ≠ "" →
      ∃ v ∈ output, ∃ m ∈ FindAllStringSubmatch (waitRe n) v,
        m.group1 = e ∧ m.whole.data <:+: v.data ∧
        ∃ ts w rest, Matches datePieces ts ∧ isSpace w = true ∧
          m.whole.data = ts ++ w :: ((appTag (goSub n 1)).data ++ rest)) ∧
    (∀ v, ¬ (appTag (goSub n 1)).data <:+: v.data →
      FindAllStringSubmatch (waitRe n) v = [] ∧
      lineCandidates (waitRe n) lastDate v = [] ∧
      ∀ ep, scanLine (waitRe n) lastDate ep v = ep) ∧
    (minInt < n → n ≤ maxInt → goSub n 1 = n - 1) := by
  refine ⟨?_, ?_, ?_⟩
  · intro e h he
    obtain ⟨v, hv, hev⟩ := scanWindow_selected n lastDate output e h he
    obtain ⟨_, _, _, m, hm, hme⟩ := mem_lineCandidates _ _ _ _ hev
    obtain ⟨h₁, _, h₃⟩ := endpoint_match_located (goSub n 1) v m hm
    exact ⟨v, hv, m, hm, hme, h₁, h₃⟩
  · intro v hv
    have h0 : FindAllStringSubmatch (waitRe n) v = [] := no_tag_no_match (goSub n 1) v hv
    have hc : lineCandidates (waitRe n) lastDate v = [] := by
      unfold lineCandidates
      rw [h0]
      cases FindStringSubmatch reDate v with
      | none => rfl
      | some d => simp
    refine ⟨h0, hc, fun ep => ?_⟩
    rw [scanLine_eq, hc]
    rfl
  · intro h₁ h₂
    unfold minInt at h₁
    unfold maxInt at h₂
    unfold goSub wrapInt
    omega

/-- C4, on the sample log: the line of instance 1, though the latest of the window,
supplies no candidate when instance 2 is asked for, and the endpoint selected
comes from a line tagged `[App/2]`. -/
theorem scan_only_requested_instance_witness :
    (¬ (appTag (goSub 3 1)).data <:+:
        (sampleLine "2015-03-04T12:35:11.00-0800" 1 "ssh abd@ny1.tmate.io").data) ∧
    lineCandidates (waitRe 3) "2015-03-04T12:34:56.78-0800 "
      (sampleLine "2015-03-04T12:35:11.00-0800" 1 "ssh abd@ny1.tmate.io") = [] ∧
    (∃ v ∈ newWindow, ∃ m ∈ FindAllStringSubmatch (waitRe 3) v,
        m.group1 = "abc@ny1.tmate.io" ∧ m.whole.data <:+: v.data ∧
        ∃ ts w rest, Matches datePieces ts ∧ isSpace w = true ∧
          m.whole.data = ts ++ w :: ((appTag (goSub 3 1)).data ++ rest)) ∧
    goSub 3 1 = 3 - 1 :=
  ⟨by decide,
   ((scan_only_requested_instance 3 "2015-03-04T12:34:56.78-0800 " newWindow).2.1 _
      (by decide)).2.1,
   (scan_only_requested_instance 3 "2015-03-04T12:34:56.78-0800 " newWindow).1
      "abc@ny1.tmate.io" (by decide) (by decide),
   (scan_only_requested_instance 3 "2015-03-04T12:34:56.78-0800 " newWindow).2.2
      (by decide) (by decide)⟩

/-! ## `GetLatestLogDate` -/

theorem reDate_match_shape (t : List Char) (m : Submatch) (h : matchHere reDate t = some m) :
    ∃ ts w, Matches datePieces ts ∧ isSpace w = true ∧ m.whole.data = ts ++ [w] := by
  obtain ⟨segs, hc, _, hw, _⟩ := matchHere_some _ _ _ h
  simp only [Regex.pieces, reDate, List.nil_append] at hc
  obtain ⟨s₁, s₂, rfl, h₁, h₂⟩ := conforms_append _ _ _ hc
  obtain ⟨segw, s₃, hwp, h₃, rfl⟩ := List.forall₂_cons_left_iff.mp h₂
  cases h₃
  obtain ⟨_, hlen, hall⟩ := hwp
  have hl : segw.length = 1 := hlen rfl
  match segw, hl, hall with
  | [w], _, hall =>
    refine ⟨s₁.flatten, w, ⟨s₁, h₁, rfl⟩, hall w (List.mem_singleton.mpr rfl), ?_⟩
    rw [hw]
    simp

/-- C8. `GetLatestLogDate` fails on an empty window and on a window none of whose lines
matches the timestamp pattern; a value it returns is the match of the timestamp
pattern in the last line of the window (a timestamp and the white-space
character after it). -/
theorem latest_log_date (output : List String) :
    (output = [] → GetLatestLogDate output = none) ∧
    ((∀ v ∈ output, FindStringSubmatch reDate v = none) → GetLatestLogDate output = none) ∧
    (∀ d, GetLatestLogDate output = some d →
      ∃ lastLine m, output.getLast? = some lastLine ∧
        FindStringSubmatch reDate lastLine = some m ∧ d = m.whole ∧
        ∃ ts w, Matches datePieces ts ∧ isSpace w = true ∧ d.data = ts ++ [w]) := by
  refine ⟨?_, ?_, ?_⟩
  · intro h
    subst h
    rfl
  · intro h
    unfold GetLatestLogDate
    cases hl : output.getLast? with
    | none => rfl
    | some lastLine =>
      simp only
      rw [h lastLine (List.mem_of_getLast?_eq_some hl)]
  · intro d h
    unfold GetLatestLogDate at h
    cases hl : output.getLast? with
    | none => rw [hl] at h; cases h
    | some lastLine =>
      rw [hl] at h
      simp only at h
      cases hm : FindStringSubmatch reDate lastLine with
      | none => rw [hm] at h; cases h
      | some m =>
        rw [hm] at h
        simp only [Option.some.injEq] at h
        subst h
        obtain ⟨t, _, ht⟩ := findFirst_some _ _ _ hm
        exact ⟨lastLine, m, rfl, hm, rfl, reDate_match_shape t m ht⟩

/-- C8, on samples: no value for the empty window and for a window without a
timestamp, the match of the last line otherwise. -/
theorem latest_log_date_witness :
    GetLatestLogDate [] = none ∧
    GetLatestLogDate ["Connected, dumping recent logs for app foo"] = none ∧
    GetLatestLogDate oldWindow = some "2015-03-04T12:34:56.78-0800 " ∧
    ∃ lastLine m, oldWindow.getLast? = some lastLine ∧
      FindStringSubmatch reDate lastLine = some m ∧ "2015-03-04T12:34:56.78-0800 " = m.whole ∧
      ∃ ts w, Matches datePieces ts ∧ isSpace w = true ∧
        "2015-03-04T12:34:56.78-0800 ".data = ts ++ [w] :=
  ⟨(latest_log_date []).1 rfl,
   (latest_log_date ["Connected, dumping recent logs for app foo"]).2.1 (by decide),
   by decide,
   (latest_log_date oldWindow).2.2 "2015-03-04T12:34:56.78-0800 " (by decide)⟩

/-! ## `Run` -/

/-- C6. When the decoded search result has no resources, `FindAppGuid` returns nothing and
`Run` panics without having issued a `PUT`. -/
theorem lookup_without_resources (env : Env) (fuel : Nat) (args : List String)
    (h : env.search.Resources = []) :
    FindAppGuid env.search = none ∧
    ∃ tr, Run env fuel args = Outcome.panicked tr ∧ ∀ c ∈ tr, c.isMutation = false := by
  have hf : FindAppGuid env.search = none := by
    unfold FindAppGuid
    rw [h]
  refine ⟨hf, ?_⟩
  unfold Run
  cases args.get? 1 with
  | none => exact ⟨[], rfl, by simp⟩
  | some appName =>
    simp only [hf]
    refine ⟨_, rfl, ?_⟩
    intro c hc
    rw [List.mem_singleton.mp hc]
    rfl

/-- C6, for a space without the application. -/
theorem lookup_without_resources_witness :
    emptyEnv.search.Resources = [] ∧ FindAppGuid emptyEnv.search = none ∧
    ∃ tr, Run emptyEnv 5 ["console", "foo"] = Outcome.panicked tr ∧
      ∀ c ∈ tr, c.isMutation = false :=
  ⟨rfl, lookup_without_resources emptyEnv 5 ["console", "foo"] rfl⟩

theorem goSub_goAdd_one (c : Int) (h : IsGoInt c) : goSub (goAdd c 1) 1 = c := by
  obtain ⟨h₁, h₂⟩ := h
  unfold minInt at h₁
  unfold maxInt at h₂
  unfold goSub goAdd wrapInt
  omega

theorem provision_legacy_index (summary : AppSummary) (guid : String) (entity : AppSearchEntity)
    (hd : summary.Diego = false) (hc : IsGoInt entity.Instances) :
    goSub (provision summary guid entity).2 1 = entity.Instances := by
  unfold provision
  rw [if_pos hd]
  exact goSub_goAdd_one _ hc

theorem pollLoop_found (logs : Nat → List String) (appName : String) (instances : Int)
    (lastDate : String) :
    ∀ (j fuel i : Nat), j < fuel →
      (∀ k, k < j → scanWindow instances lastDate (logs (i + k)) = "") →
      scanWindow instances lastDate (logs (i + j)) ≠ "" →
      pollLoop logs appName instances lastDate fuel i =
        (List.replicate (j + 1) (Call.recentLogs appName),
          some (scanWindow instances lastDate (logs (i + j)))) := by
  intro j
  induction j with
  | zero =>
    intro fuel i hj _ hsel
    cases fuel with
    | zero => omega
    | succ f =>
      rw [Nat.add_zero] at hsel
      unfold pollLoop
      simp only
      rw [if_neg hsel]
      rfl
  | succ j ih =>
    intro fuel i hj hall hsel
    cases fuel with
    | zero => omega
    | succ f =>
      have h0 : scanWindow instances lastDate (logs i) = "" := by
        have := hall 0 (by omega)
        rwa [Nat.add_zero] at this
      have hall' : ∀ k, k < j → scanWindow instances lastDate (logs (i + 1 + k)) = "" := by
        intro k hk
        have := hall (k + 1) (by omega)
        rwa [show i + (k + 1) = i + 1 + k by omega] at this
      have hsel' : scanWindow instances lastDate (logs (i + 1 + j)) ≠ "" := by
        rwa [show i + (j + 1) = i + 1 + j by omega] at hsel
      have hrec := ih f (i + 1) (by omega) hall' hsel'
      unfold pollLoop
      simp only
      rw [if_pos h0, hrec, show i + (j + 1) = i + 1 + j by omega]
      rfl

theorem pollLoop_waiting (logs : Nat → List String) (appName : String) (instances : Int)
    (lastDate : String) :
    ∀ (fuel i : Nat), (∀ k, k < fuel → scanWindow instances lastDate (logs (i + k)) = "") →
      pollLoop logs appName instances lastDate fuel i =
        (List.replicate fuel (Call.recentLogs appName), none) := by
  intro fuel
  induction fuel with
  | zero =>
    intro i _
    rfl
  | succ f ih =>
    intro i hall
    have h0 : scanWindow instances lastDate (logs i) = "" := by
      have := hall 0 (by omega)
      rwa [Nat.add_zero] at this
    have hall' : ∀ k, k < f → scanWindow instances lastDate (logs (i + 1 + k)) = "" := by
      intro k hk
      have := hall (k + 1) (by omega)
      rwa [show i + (k + 1) = i + 1 + k by omega] at this
    unfold pollLoop
    simp only
    rw [if_pos h0, ih (i + 1) hall']
    rfl

theorem scanWindow_legacy (c : Int) (hc : IsGoInt c) (lastDate : String) (output : List String) :
    scanWindow (goAdd c 1) lastDate output = scanWith (endpointRe c) lastDate output := by
  unfold scanWindow scanWith waitRe
  rw [goSub_goAdd_one c hc]

theorem provision_legacy (summary : AppSummary) (guid : String) (entity : AppSearchEntity)
    (hd : summary.Diego = false) :
    provision summary guid entity =
      ([Call.putCommand guid (tmateCmd ++ " && sleep 3600"),
        Call.putInstances guid (goAdd entity.Instances 1)], goAdd entity.Instances 1) := by
  unfold provision
  rw [if_pos hd]
  rfl

theorem scanWith_endpoint_tagged (c : Int) (lastDate : String) (output : List String)
    (h : scanWith (endpointRe c) lastDate output ≠ "") :
    ∃ v ∈ output, ∃ m ∈ FindAllStringSubmatch (endpointRe c) v,
      m.group1 = scanWith (endpointRe c) lastDate output ∧
      (appTag c).data <:+: m.whole.data := by
  have hl : scanWith (endpointRe c) lastDate output =
      ((output.flatMap (lineCandidates (endpointRe c) lastDate)).getLast?).getD "" :=
    scanFold_eq _ _ _ _
  cases hc : (output.flatMap (lineCandidates (endpointRe c) lastDate)).getLast? with
  | none =>
    rw [hc] at hl
    exact absurd hl h
  | some x =>
    rw [hc] at hl
    simp only [Option.getD_some] at hl
    obtain ⟨v, hv, hxv⟩ := List.mem_flatMap.mp (List.mem_of_getLast?_eq_some hc)
    obtain ⟨_, _, _, m, hm, hme⟩ := mem_lineCandidates _ _ _ _ hxv
    exact ⟨v, hv, m, hm, hme.trans hl.symm, (endpoint_match_located c v m hm).2.1⟩

/-- C5. On a legacy backend the index that the waiting phase of `Run` puts into the
endpoint pattern is the original count `c` of instances.  The value of
`instances-1` for the `instances` that `Run` hands to `WaitAndConnect` is `c`
and the pattern compiled is the one with the tag `[App/c]`; and `Run` itself
behaves as the scan with that pattern says: if the first window (after the one
read for the high-water mark) in which the pattern with `[App/c]` selects an
endpoint is reached within the fuel, `Run` polls up to that window, runs `ssh`
on the endpoint selected there, which is captured from a match carrying
`[App/c]`, and cleans up; if that pattern selects nothing in the windows
polled, `Run` is still waiting. -/
theorem waiting_index_is_original_count (env : Env) (fuel : Nat) (args : List String)
    (appName guid lastDate : String) (entity : AppSearchEntity)
    (ha : args.get? 1 = some appName) (hf : FindAppGuid env.search = some (guid, entity))
    (hd : env.summary.Diego = false) (hc : IsGoInt entity.Instances)
    (hl : GetLatestLogDate (env.logs 0) = some lastDate) :
    goSub (provision env.summary guid entity).2 1 = entity.Instances ∧
    waitRe (provision env.summary guid entity).2 = endpointRe entity.Instances ∧
    (waitRe (provision env.summary guid entity).2).pre =
      datePieces ++ [rep isSpace 1] ++ lits (appTag entity.Instances) ++
        [rep isSpace 6, plus notNewline, rep isSpace 1] ∧
    (∀ j, j < fuel →
      (∀ k, k < j → scanWith (endpointRe entity.Instances) lastDate (env.logs (1 + k)) = "") →
      scanWith (endpointRe entity.Instances) lastDate (env.logs (1 + j)) ≠ "" →
      Run env fuel args = Outcome.done
        ([Call.appQuery env.spaceGuid appName, Call.summary guid,
          Call.putCommand guid (tmateCmd ++ " && sleep 3600"),
          Call.putInstances guid (goAdd entity.Instances 1), Call.recentLogs appName] ++
         List.replicate (j + 1) (Call.recentLogs appName) ++
         [Call.ssh (scanWith (endpointRe entity.Instances) lastDate (env.logs (1 + j))),
          Call.putInstances guid entity.Instances, Call.putCommand guid entity.Command]) ∧
      ∃ v ∈ env.logs (1 + j), ∃ m ∈ FindAllStringSubmatch (endpointRe entity.Instances) v,
        m.group1 = scanWith (endpointRe entity.Instances) lastDate (env.logs (1 + j)) ∧
        (appTag entity.Instances).data <:+: m.whole.data) ∧
    ((∀ k, k < fuel →
        scanWith (endpointRe entity.Instances) lastDate (env.logs (1 + k)) = "") →
      Run env fuel args = Outcome.waiting
        ([Call.appQuery env.spaceGuid appName, Call.summary guid,
          Call.putCommand guid (tmateCmd ++ " && sleep 3600"),
          Call.putInstances guid (goAdd entity.Instances 1), Call.recentLogs appName] ++
         List.replicate fuel (Call.recentLogs appName))) := by
  have h := provision_legacy_index env.summary guid entity hd hc
  have hp := provision_legacy env.summary guid entity hd
  refine ⟨h, ?_, ?_, ?_, ?_⟩
  · unfold waitRe
    rw [h]
  · unfold waitRe
    rw [h]
    rfl
  · intro j hj hall hsel
    refine ⟨?_, scanWith_endpoint_tagged _ _ _ hsel⟩
    have hpoll := pollLoop_found env.logs appName (goAdd entity.Instances 1) lastDate j fuel 1 hj
      (fun k hk => by rw [scanWindow_legacy _ hc]; exact hall k hk)
      (by rw [scanWindow_legacy _ hc]; exact hsel)
    rw [scanWindow_legacy _ hc] at hpoll
    unfold Run
    rw [ha]
    simp only [hf, hp, hl, WaitAndConnect, hpoll, cleanup, ChangeInstanceCount,
      ChangeAppCommand, goSub_goAdd_one _ hc]
    simp
  · intro hall
    have hpoll := pollLoop_waiting env.logs appName (goAdd entity.Instances 1) lastDate fuel 1
      (fun k hk => by rw [scanWindow_legacy _ hc]; exact hall k hk)
    unfold Run
    rw [ha]
    simp only [hf, hp, hl, WaitAndConnect, hpoll]
    simp

/-- C5, for `foo` with 2 instances: the first poll reads the old log, where the pattern
with `[App/2]` selects nothing; the second reads the new log, where it selects
the endpoint of instance 2 (the pattern with `[App/1]` would select the one of
instance 1), and `Run` runs `ssh` on it. -/
theorem waiting_index_is_original_count_witness :
    goSub (provision (fooEnv false).summary "g1" fooEntity).2 1 = 2 ∧
    waitRe (provision (fooEnv false).summary "g1" fooEntity).2 = endpointRe 2 ∧
    scanWith (endpointRe 2) "2015-03-04T12:34:56.78-0800 " ((fooEnv false).logs (1 + 1)) =
      "abc@ny1.tmate.io" ∧
    scanWith (endpointRe 1) "2015-03-04T12:34:56.78-0800 " ((fooEnv false).logs (1 + 1)) =
      "abd@ny1.tmate.io" ∧
    Run (fooEnv false) 2 ["console", "foo"] = Outcome.done
      ([Call.appQuery "sp" "foo", Call.summary "g1",
        Call.putCommand "g1" (tmateCmd ++ " && sleep 3600"),
        Call.putInstances "g1" (goAdd 2 1), Call.recentLogs "foo"] ++
       List.replicate (1 + 1) (Call.recentLogs "foo") ++
       [Call.ssh (scanWith (endpointRe 2) "2015-03-04T12:34:56.78-0800 "
          ((fooEnv false).logs (1 + 1))),
        Call.putInstances "g1" 2, Call.putCommand "g1" "node app.js"]) ∧
    Run (fooEnv false) 1 ["console", "foo"] = Outcome.waiting
      ([Call.appQuery "sp" "foo", Call.summary "g1",
        Call.putCommand "g1" (tmateCmd ++ " && sleep 3600"),
        Call.putInstances "g1" (goAdd 2 1), Call.recentLogs "foo"] ++
       List.replicate 1 (Call.recentLogs "foo")) :=
  ⟨(waiting_index_is_original_count (fooEnv false) 2 ["console", "foo"] "foo" "g1"
      "2015-03-04T12:34:56.78-0800 " fooEntity rfl rfl rfl (by decide) (by decide)).1,
   (waiting_index_is_original_count (fooEnv false) 2 ["console", "foo"] "foo" "g1"
      "2015-03-04T12:34:56.78-0800 " fooEntity rfl rfl rfl (by decide) (by decide)).2.1,
   by decide, by decide,
   ((waiting_index_is_original_count (fooEnv false) 2 ["console", "foo"] "foo" "g1"
      "2015-03-04T12:34:56.78-0800 " fooEntity rfl rfl rfl (by decide) (by decide)).2.2.2.1
      1 (by decide) (by decide) (by decide)).1,
   (waiting_index_is_original_count (fooEnv false) 1 ["console", "foo"] "foo" "g1"
      "2015-03-04T12:34:56.78-0800 " fooEntity rfl rfl rfl (by decide) (by decide)).2.2.2.2
      (by decide)⟩

theorem lastInstanceCount_cleanup (guid : String) (instances : Int) (entity : AppSearchEntity)
    (pre : List Call) :
    lastInstanceCount (pre ++ cleanup guid instances entity) = some (goSub instances 1) := by
  unfold lastInstanceCount cleanup ChangeInstanceCount ChangeAppCommand
  rw [List.filterMap_append]
  simp [Call.instanceCount]

theorem lastStartCommand_cleanup (guid : String) (instances : Int) (entity : AppSearchEntity)
    (pre : List Call) :
    lastStartCommand (pre ++ cleanup guid instances entity) = some entity.Command := by
  unfold lastStartCommand cleanup ChangeInstanceCount ChangeAppCommand
  rw [List.filterMap_append]
  simp [Call.startCommand]

theorem Run_done (env : Env) (fuel : Nat) (args : List String) (tr : List Call)
    (h : Run env fuel args = Outcome.done tr) :
    ∃ guid entity pre, FindAppGuid env.search = some (guid, entity) ∧
      tr = pre ++ cleanup guid (provision env.summary guid entity).2 entity := by
  unfold Run at h
  cases ha : args.get? 1 with
  | none => rw [ha] at h; cases h
  | some appName =>
    rw [ha] at h
    simp only at h
    cases hf : FindAppGuid env.search with
    | none => rw [hf] at h; cases h
    | some ge =>
      obtain ⟨guid, entity⟩ := ge
      rw [hf] at h
      simp only at h
      cases hl : GetLatestLogDate (env.logs 0) with
      | none => rw [hl] at h; cases h
      | some lastDate =>
        rw [hl] at h
        simp only at h
        cases hw : WaitAndConnect env.logs appName (provision env.summary guid entity).2
            lastDate fuel with
        | mk t b =>
          rw [hw] at h
          cases b with
          | false => cases h
          | true =>
            simp only [Outcome.done.injEq] at h
            exact ⟨guid, entity, _, rfl, h.symm⟩

/-- On normal completion the last writes of `Run` are `instances-1` and the original
start command. -/
theorem Run_done_last_writes (env : Env) (fuel : Nat) (args : List String) (tr : List Call)
    (h : Run env fuel args = Outcome.done tr) :
    ∃ guid entity, FindAppGuid env.search = some (guid, entity) ∧
      lastInstanceCount tr = some (goSub (provision env.summary guid entity).2 1) ∧
      lastStartCommand tr = some entity.Command := by
  obtain ⟨guid, entity, pre, hf, rfl⟩ := Run_done env fuel args tr h
  exact ⟨guid, entity, hf, lastInstanceCount_cleanup _ _ _ _, lastStartCommand_cleanup _ _ _ _⟩

/-- On a legacy backend a completed `Run` has written back the original instance
count and the original start command. -/
theorem Run_legacy_restores (env : Env) (fuel : Nat) (args : List String) (tr : List Call)
    (guid : String) (entity : AppSearchEntity)
    (hf : FindAppGuid env.search = some (guid, entity)) (hd : env.summary.Diego = false)
    (hc : IsGoInt entity.Instances) (h : Run env fuel args = Outcome.done tr) :
    lastInstanceCount tr = some entity.Instances ∧ lastStartCommand tr = some entity.Command := by
  obtain ⟨g, e, hf2, h₁, h₂⟩ := Run_done_last_writes env fuel args tr h
  rw [hf] at hf2
  simp only [Option.some.injEq, Prod.mk.injEq] at hf2
  obtain ⟨rfl, rfl⟩ := hf2
  rw [provision_legacy_index env.summary guid entity hd hc] at h₁
  exact ⟨h₁, h₂⟩

/-- On a next-generation backend a completed `Run` has written the original instance
count less one. -/
theorem Run_diego_decrements (env : Env) (fuel : Nat) (args : List String) (tr : List Call)
    (guid : String) (entity : AppSearchEntity)
    (hf : FindAppGuid env.search = some (guid, entity)) (hd : env.summary.Diego = true)
    (h : Run env fuel args = Outcome.done tr) :
    lastInstanceCount tr = some (goSub entity.Instances 1) ∧
    lastStartCommand tr = some entity.Command := by
  obtain ⟨g, e, hf2, h₁, h₂⟩ := Run_done_last_writes env fuel args tr h
  rw [hf] at hf2
  simp only [Option.some.injEq, Prod.mk.injEq] at hf2
  obtain ⟨rfl, rfl⟩ := hf2
  have hp : (provision env.summary guid entity).2 = entity.Instances := by
    unfold provision
    rw [hd]
    rfl
  rw [hp] at h₁
  exact ⟨h₁, h₂⟩

/-- C1 (the code departs from it). For the application `foo` (2 instances, start command
`node app.js`) on a next-generation backend, `Run` completes, nothing was
provisioned, and the last instance count written is 1, not 2; the last start
command written is the original one.  On the legacy backend the same
application gets 2 back. -/
theorem diego_run_ends_one_instance_short :
    Run (fooEnv true) 2 ["console", "foo"] =
      Outcome.done [Call.appQuery "sp" "foo", Call.summary "g1", Call.recentLogs "foo",
        Call.recentLogs "foo", Call.recentLogs "foo", Call.ssh "abd@ny1.tmate.io",
        Call.putInstances "g1" 1, Call.putCommand "g1" "node app.js"] ∧
    lastInstanceCount (Run (fooEnv true) 2 ["console", "foo"]).trace = some 1 ∧
    lastInstanceCount (Run (fooEnv true) 2 ["console", "foo"]).trace ≠ some fooEntity.Instances ∧
    lastStartCommand (Run (fooEnv true) 2 ["console", "foo"]).trace = some fooEntity.Command ∧
    lastInstanceCount (Run (fooEnv false) 2 ["console", "foo"]).trace = some fooEntity.Instances := by
  decide

/-- C2 (as stated, refuted). For `foo` (2 instances, `node app.js`) on the legacy backend
the start command written by the provisioning step is not the bootstrap command
followed by ` && node app.js`: it ends in ` && sleep 3600`.  And for the
largest instance count the count written is not one more. -/
theorem provisioning_does_not_chain_original_command :
    lastStartCommand (provision (fooEnv false).summary "g1" fooEntity).1 ≠
      some (tmateCmd ++ " && " ++ fooEntity.Command) ∧
    lastStartCommand (provision (fooEnv false).summary "g1" fooEntity).1 =
      some (tmateCmd ++ " && sleep 3600") ∧
    lastStartCommand (provision (fooEnv false).summary "g1" { fooEntity with Command := "" }).1 ≠
      some tmateCmd ∧
    (provision (fooEnv false).summary "g1" { fooEntity with Instances := maxInt }).2 ≠ maxInt + 1 := by
  decide

/-- C2 (amended). On a legacy backend, once the application is found, the calls of `Run`
after the two queries are: the start command set to the bootstrap command
followed by ` && sleep 3600` (whatever the original start command), then the count
of instances set to the original count plus one (plus one in `int`
arithmetic: exactly `c + 1` for every `c` below the largest `int`). -/
theorem provisioning_step (env : Env) (fuel : Nat) (args : List String) (appName guid : String)
    (entity : AppSearchEntity) (ha : args.get? 1 = some appName)
    (hf : FindAppGuid env.search = some (guid, entity)) (hd : env.summary.Diego = false) :
    (∃ rest, (Run env fuel args).trace =
      [Call.appQuery env.spaceGuid appName, Call.summary guid,
       Call.putCommand guid (tmateCmd ++ " && sleep 3600"),
       Call.putInstances guid (goAdd entity.Instances 1)] ++ rest) ∧
    (IsGoInt entity.Instances → entity.Instances < maxInt →
      goAdd entity.Instances 1 = entity.Instances + 1) := by
  refine ⟨?_, ?_⟩
  · have hp : provision env.summary guid entity =
        ([Call.putCommand guid (tmateCmd ++ " && sleep 3600"),
          Call.putInstances guid (goAdd entity.Instances 1)], goAdd entity.Instances 1) := by
      unfold provision
      rw [if_pos hd]
      rfl
    unfold Run
    rw [ha]
    simp only [hf, hp]
    cases GetLatestLogDate (env.logs 0) with
    | none => exact ⟨_, rfl⟩
    | some lastDate =>
      simp only
      cases WaitAndConnect env.logs appName (goAdd entity.Instances 1) lastDate fuel with
      | mk t b =>
        cases b with
        | false => exact ⟨_, rfl⟩
        | true => exact ⟨_, rfl⟩
  · intro h₁ h₂
    obtain ⟨h₃, _⟩ := h₁
    unfold minInt at h₃
    unfold maxInt at h₂
    unfold goAdd wrapInt
    omega

/-- C2 (amended), for `foo`: 3 instances and the bootstrap command with `sleep 3600`. -/
theorem provisioning_step_witness :
    (∃ rest, (Run (fooEnv false) 2 ["console", "foo"]).trace =
      [Call.appQuery "sp" "foo", Call.summary "g1",
       Call.putCommand "g1" (tmateCmd ++ " && sleep 3600"),
       Call.putInstances "g1" (goAdd 2 1)] ++ rest) ∧ goAdd 2 1 = 2 + 1 :=
  ⟨(provisioning_step (fooEnv false) 2 ["console", "foo"] "foo" "g1" fooEntity rfl rfl rfl).1,
   (provisioning_step (fooEnv false) 2 ["console", "foo"] "foo" "g1" fooEntity rfl rfl rfl).2
     (by decide) (by decide)⟩

/-! ## Restoring -/

theorem restore_twice (api : Api) (guid : String) (instances : Int) (entity : AppSearchEntity)
    (st : Platform) :
    Platform.run api (cleanup guid instances entity)
        (Platform.run api (cleanup guid instances entity) st) =
      Platform.run api (cleanup guid instances entity) st := by
  unfold Platform.run cleanup ChangeInstanceCount ChangeAppCommand
  simp only [List.singleton_append, List.foldl_cons, List.foldl_nil, Platform.put]
  cases api.instancesOf (instancesBody (goSub instances 1)) with
  | none =>
    cases api.commandOf (commandBody entity.Command) with
    | none => rfl
    | some c =>
      funext g
      by_cases hg : g = guid
      · subst hg; simp
      · simp [Function.update_noteq hg]
  | some k =>
    cases api.commandOf (commandBody entity.Command) with
    | none =>
      funext g
      by_cases hg : g = guid
      · subst hg; simp
      · simp [Function.update_noteq hg]
    | some c =>
      funext g
      by_cases hg : g = guid
      · subst hg; simp
      · simp [Function.update_noteq hg]

theorem iterate_of_idempotent (f : Platform → Platform) (hf : ∀ st, f (f st) = f st) (st : Platform) :
    ∀ N : Nat, 1 ≤ N → Nat.iterate f N st = f st := by
  intro N
  induction N with
  | zero => intro h; omega
  | succ n ih =>
    intro _
    rw [Function.iterate_succ_apply']
    cases n with
    | zero => rfl
    | succ m => rw [ih (by omega), hf]

/-- C9. Applying the restore action of `Run` (instance count `instances-1`, then the
original start command) `N ≥ 1` times leaves the platform as applying it once
does, however the platform reads the two request bodies; the restore of the
interrupt handler followed by the restore after the connection leaves it as the
latter alone does. -/
theorem restore_idempotent (api : Api) (st : Platform) (guid : String) (instances : Int)
    (entity : AppSearchEntity) (N : Nat) (hN : 1 ≤ N) :
    Nat.iterate (Platform.run api (cleanup guid instances entity)) N st =
      Platform.run api (cleanup guid instances entity) st ∧
    Platform.run api (cleanup guid instances entity)
        (Platform.run api (interruptHandler guid instances entity) st) =
      Platform.run api (cleanup guid instances entity) st :=
  ⟨iterate_of_idempotent _ (restore_twice api guid instances entity) st N hN,
   restore_twice api guid instances entity st⟩

/-- C9, for `foo` scaled to 3 on a platform that reads the bodies as JSON: three
restores leave 2 instances and `node app.js`, as one does. -/
theorem restore_idempotent_witness :
    1 ≤ 3 ∧
    Nat.iterate (Platform.run jsonApi (cleanup "g1" 3 fooEntity)) 3
        (fun _ => { instances := 3, command := tmateCmd ++ " && sleep 3600" }) =
      Platform.run jsonApi (cleanup "g1" 3 fooEntity)
        (fun _ => { instances := 3, command := tmateCmd ++ " && sleep 3600" }) ∧
    Platform.run jsonApi (cleanup "g1" 3 fooEntity)
        (fun _ => { instances := 3, command := tmateCmd ++ " && sleep 3600" }) "g1" =
      { instances := 2, command := "node app.js" } :=
  ⟨by decide,
   (restore_idempotent jsonApi (fun _ => { instances := 3, command := tmateCmd ++ " && sleep 3600" })
      "g1" 3 fooEntity 3 (by decide)).1,
   by decide⟩

/-! ## The body of `ChangeAppCommand` -/

theorem dropPrefix_append : ∀ (p x : List Char), dropPrefix p (p ++ x) = some x := by
  intro p
  induction p with
  | nil => intro x; cases x <;> rfl
  | cons c cs ih =>
    intro x
    rw [List.cons_append]
    unfold dropPrefix
    rw [if_pos rfl, ih]

theorem jsonStringBody_escapeQuotes (tail : List Char) :
    ∀ (cs : List Char), (∀ c ∈ cs, c ≠ '\\' ∧ 32 ≤ c.toNat) →
      jsonStringBody (escapeQuotes cs ++ '"' :: tail) = some (cs, tail) := by
  intro cs
  unfold jsonStringBody
  induction cs with
  | nil =>
    intro _
    show jsonStringFrom none ('"' :: tail) = some ([], tail)
    unfold jsonStringFrom
    rw [if_pos rfl]
    rfl
  | cons c cs ih =>
    intro h
    have hc := h c (List.mem_cons_self _ _)
    have ih' := ih (fun x hx => h x (List.mem_cons_of_mem _ hx))
    by_cases hq : c = '"'
    · subst hq
      show jsonStringFrom none ('\\' :: '"' :: (escapeQuotes cs ++ '"' :: tail)) =
        some ('"' :: cs, tail)
      unfold jsonStringFrom
      rw [if_neg (by decide), if_pos rfl]
      simp only
      rw [if_neg (by decide)]
      have hs : simpleEscape '"' = some '"' := by decide
      rw [hs]
      simp only
      rw [ih']
      rfl
    · have h32 : ¬ c.toNat < 32 := by omega
      have he : escapeQuotes (c :: cs) = c :: escapeQuotes cs := by
        rw [escapeQuotes, if_neg hq]
      rw [he, List.cons_append]
      unfold jsonStringFrom
      rw [if_neg hq, if_neg hc.1, if_neg h32, ih']
      rfl

/-- A start command without backslash and control character is read back from the
body of `ChangeAppCommand` as it was: the quotes are escaped as JSON asks. -/
theorem command_body_round_trip_plain (s : String)
    (h : ∀ c ∈ s.data, c ≠ '\\' ∧ 32 ≤ c.toNat) :
    decodeCommandBody (commandBody s) = some s := by
  unfold decodeCommandBody commandBody
  simp only [String.data_append, List.append_assoc]
  rw [dropPrefix_append]
  simp only
  have := jsonStringBody_escapeQuotes "\x7d".data s.data h
  simp only [String.data] at this ⊢
  rw [this]
  simp

/-- C10 (the code departs from it). The body built for the start command `echo a\tb`
(with a backslash) is `\x7b"command":"echo a\tb"\x7d`, whose `command` field
reads back with a tab in place of the backslash and the `t`; the bodies built
for a lone backslash and for a command with a newline are not JSON at all.  A
command with quotes only comes back unchanged. -/
theorem command_body_does_not_round_trip :
    commandBody "echo a\\tb" = "\x7b\"command\":\"echo a\\tb\"\x7d" ∧
    decodeCommandBody (commandBody "echo a\\tb") = some "echo a\tb" ∧
    decodeCommandBody (commandBody "echo a\\tb") ≠ some "echo a\\tb" ∧
    decodeCommandBody (commandBody "\\") = none ∧
    decodeCommandBody (commandBody "echo a\nb") = none ∧
    decodeCommandBody (commandBody "echo \"a b\"") = some "echo \"a b\"" := by
  decide

end CfConsole
